import Mathlib

/-
Verification development for the proxy-form reactive core.

The development shallowly embeds the two source modules:
  * the helpers module (path utilities `getIn` / `setIn`, the type
    discriminators `isPlainObject` / `isFunction` / `isMap`, the
    read-tracking proxy `createProxy`, and the path-indexed trie
    `FieldsMap`), and
  * the misuse check of `useForm.field` from `hooks.ts`.

JavaScript values are modelled by the inductive `JSVal`; machine numbers
appearing in the claims are integral, so numbers are carried as `Int` with
`NaN` as a separate constructor.  Reference identity of objects is not
modelled: object values compare structurally, and comments mark every place
where this matters.  In-place mutation performed by the source is modelled
by functional update (the updated root is returned); executions interrupted
by a thrown `TypeError` are modelled by an `Except` error result.
-/

/-- A single path segment: a string, a non-negative integer (array index),
or the module-private sentinel symbol `selfRef` used by `FieldsMap` to mark
"payload stored at this node".  This mirrors `FieldName = string | number |
symbol` from the source's types, with the one symbol that actually occurs. -/
inductive FieldName where
  | str (s : String)
  | num (n : Nat)
  | selfRef
deriving DecidableEq, Repr

/-- A property key of a JavaScript object after `ToPropertyKey` coercion:
either a string or a symbol.  Numeric field names coerce to their decimal
string form; the sentinel symbol stays a symbol. -/
inductive ObjKey where
  | str (s : String)
  | sym
deriving DecidableEq, Repr

/-- `ToPropertyKey` for a `FieldName`: numbers become their decimal string,
strings stay, the sentinel symbol stays a symbol. -/
def objKeyOf : FieldName → ObjKey
  | .str s => .str s
  | .num n => .str (toString n)
  | .selfRef => .sym

/-- The JavaScript values the core manipulates.  `num` carries an `Int`
(the claims only involve integral numbers); `nan` is the not-a-number
value; `funcVal` and `classObj` are opaque tags standing for callables and
for non-plain (class-instance) objects, which the proxy treats as
terminals.  Object fields and array elements keep insertion order, matching
JS enumeration order for the string keys used here. -/
inductive JSVal where
  | undefVal
  | nullVal
  | bool (b : Bool)
  | num (n : Int)
  | nan
  | str (s : String)
  | obj (fields : List (ObjKey × JSVal))
  | arr (elems : List JSVal)
  | funcVal (id : Nat)
  | classObj (id : Nat)
deriving Repr

/-- `value === undefined || value === null`, the short-circuit test used by
`getIn`. -/
def JSVal.isNullish : JSVal → Bool
  | .undefVal => true
  | .nullVal => true
  | _ => false

/-- `value === undefined`, the auto-vivification test used by `setIn`. -/
def JSVal.isUndef : JSVal → Bool
  | .undefVal => true
  | _ => false

/-- Ordered association-list lookup, modelling `Map`/object property
lookup. -/
def lookupAssoc (l : List (ObjKey × JSVal)) (k : ObjKey) : Option JSVal :=
  match l with
  | [] => none
  | (k', v) :: rest => if k' = k then some v else lookupAssoc rest k

/-- Ordered association-list update: an existing key keeps its position,
a new key is appended, matching JS object/`Map` insertion-order
semantics. -/
def updAssoc (l : List (ObjKey × JSVal)) (k : ObjKey) (v : JSVal) :
    List (ObjKey × JSVal) :=
  match l with
  | [] => [(k, v)]
  | (k', v') :: rest =>
      if k' = k then (k, v) :: rest else (k', v') :: updAssoc rest k v

/-- A canonical array index for a field name: a number names the index
directly, a string only when it is the canonical decimal form of an index
(JS treats `arr["01"]` as a plain property, not an element). -/
def arrIndex? : FieldName → Option Nat
  | .num n => some n
  | .str s => match s.toNat? with
      | some n => if toString n = s then some n else none
      | none => none
  | .selfRef => none

/-- Array write with JS extension semantics: writing at an index beyond the
current length extends the array, the fresh holes reading as `undefined`. -/
def arrWrite (xs : List JSVal) (i : Nat) (v : JSVal) : List JSVal :=
  if i < xs.length then xs.set i v
  else xs ++ List.replicate (i - xs.length) JSVal.undefVal ++ [v]

/-- The default accessor `objGetter`: `obj[key]` on a non-nullish receiver.
Primitives own no properties (prototype members other than `length` are not
modelled); property reads on nullish receivers throw in JS, which callers
model with an explicit guard before invoking this accessor. -/
def objGetter (obj : JSVal) (k : FieldName) : JSVal :=
  match obj with
  | .obj fields => (lookupAssoc fields (objKeyOf k)).getD .undefVal
  | .arr xs =>
      match arrIndex? k with
      | some i => (xs.get? i).getD .undefVal
      | none => if k = .str "length" then .num xs.length else .undefVal
  | .str s => if k = .str "length" then .num s.length else .undefVal
  | _ => .undefVal

/-- A thrown JS `TypeError` (writing to a primitive in strict mode, or
reading/writing a property of a nullish value). -/
inductive JsErr where
  | typeError
deriving DecidableEq, Repr

/-- The default setter `objSetter`: `obj[key] = value`.  Succeeds on
objects and on arrays at canonical indices; strict-mode writes to
primitives or nullish values throw.  Non-index properties of arrays are not
modelled (no claim exercises them). -/
def objSetter (obj : JSVal) (k : FieldName) (v : JSVal) :
    Except JsErr JSVal :=
  match obj with
  | .obj fields => .ok (.obj (updAssoc fields (objKeyOf k) v))
  | .arr xs =>
      match arrIndex? k with
      | some i => .ok (.arr (arrWrite xs i v))
      | none => .error .typeError
  | _ => .error .typeError

/-- `getIn(obj, path)` with the default accessor: walk the path, replacing
the current value by `accessor(current, segment)`, short-circuiting to
`undefined` as soon as the current value is nullish.  Total: the nullish
guard runs before every accessor call, and `objGetter` is defined on every
non-nullish receiver. -/
def getIn (obj : JSVal) (path : List FieldName) : JSVal :=
  match path with
  | [] => obj
  | k :: rest => if obj.isNullish then .undefVal else getIn (objGetter obj k) rest

/-- The last segment `path[path.length - 1]` as JS evaluates it: for an
empty path the out-of-range read yields `undefined`, which `ToPropertyKey`
coerces to the string key `"undefined"`. -/
def lastSeg (path : List FieldName) : FieldName :=
  (path.getLast?).getD (.str "undefined")

/-- The walk phase of `setIn`: descend along `mid`, synthesizing a missing
child with `defaultValue()` and writing it in place, then write `value` at
`last` in the final container.  The source mutates in place; this model
returns the updated root.  A JS run that throws midway leaves a partially
mutated root, which the model collapses to the error result — every claim
only concerns non-throwing executions.  The property read `accessor(result,
key)` throws on a nullish receiver, modelled by the explicit guard. -/
def setInGo (obj : JSVal) (mid : List FieldName) (last : FieldName)
    (value : JSVal) (defaultValue : Unit → JSVal) : Except JsErr JSVal :=
  match mid with
  | [] => objSetter obj last value
  | k :: rest =>
      if obj.isNullish then .error .typeError
      else
        match setInGo (if (objGetter obj k).isUndef then defaultValue ()
            else objGetter obj k) rest last value defaultValue with
        | .error e => .error e
        | .ok sub => objSetter obj k sub

/-- `setIn(obj, path, value, defaultValue)` with the default accessor and
setter: a one-segment path writes directly; otherwise walk all segments but
the last (auto-creating missing containers via `defaultValue`) and write
`value` at the last segment. -/
def setIn (obj : JSVal) (path : List FieldName) (value : JSVal)
    (defaultValue : Unit → JSVal) : Except JsErr JSVal :=
  match path with
  | [k] => objSetter obj k value
  | _ => setInGo obj path.dropLast (lastSeg path) value defaultValue

/-! ### Type discriminators -/

/-- `isPlainObject`: true for plain data objects — objects whose prototype
is null or whose constructor is the base `Object` constructor (or one whose
string form matches it).  In the model the plain objects are exactly the
`obj` values; `classObj` stands for the class instances and specialized
containers the constructor check rejects, and primitives, arrays and
callables are not plain objects. -/
def isPlainObject : JSVal → Bool
  | .obj _ => true
  | _ => false

/-- `Array.isArray`. -/
def isJsArray : JSVal → Bool
  | .arr _ => true
  | _ => false

/-- `isFunction`: any invocable value. -/
def isFunction : JSVal → Bool
  | .funcVal _ => true
  | _ => false

/-! ### The read-tracking proxy `createProxy`

`createProxy(identifier, form, prevPath, onAccess)` captures `parent =
getIn(form, prevPath)` and intercepts every operation.  A facade carries no
state of its own beyond `(form, prevPath)`, so the model represents each
trap as a function of those two; the `onAccess` callback is modelled by
returning the list of paths the trap reports, in order. -/

/-- A property name arriving at a proxy trap: either the creator's private
marker symbol (`identifier`) or an ordinary string property. -/
inductive ProxyProp where
  | marker
  | prop (s : String)
deriving DecidableEq, Repr

/-- What the `get` trap hands back: a fresh child facade for a deeper path,
the private `[parent, prevPath]` pair, a callable bound to the receiver, or
a terminal value forwarded as-is. -/
inductive GetResult where
  | facade (path : List FieldName)
  | markerPair (parent : JSVal) (path : List FieldName)
  | bound (fn : JSVal)
  | value (v : JSVal)

/-- The `get` trap of `createProxy`: the marker returns `[parent,
prevPath]` with no access recorded; a container-valued property returns a
new facade for the extended path with no access recorded; a callable or any
other terminal records the extended path, the callable coming back bound to
the receiver.  `parent[prop]` throws if `parent` is nullish. -/
def proxyGet (form : JSVal) (prevPath : List FieldName) (p : ProxyProp) :
    Except JsErr (GetResult × List (List FieldName)) :=
  let parent := getIn form prevPath
  match p with
  | .marker => .ok (.markerPair parent prevPath, [])
  | .prop s =>
      if parent.isNullish then .error .typeError
      else
        let value := objGetter parent (.str s)
        if isJsArray value || isPlainObject value then
          .ok (.facade (prevPath ++ [.str s]), [])
        else if isFunction value then
          .ok (.bound value, [prevPath ++ [.str s]])
        else
          .ok (.value value, [prevPath ++ [.str s]])

/-- The error thrown by every mutation trap of the proxy. -/
structure DirectMutationError where
  message : String
deriving DecidableEq, Repr

/-- The message of every mutation trap. -/
def directMutationMsg : String :=
  "Direct modifications on form data are not allowed! Use `updateForm`!"

/-- The `set` trap: throws unconditionally, before anything is written, so
the snapshot comes back unchanged. -/
def proxySet (form : JSVal) (_prevPath : List FieldName) (_k : ProxyProp)
    (_v : JSVal) : Except DirectMutationError Unit × JSVal :=
  (.error ⟨directMutationMsg⟩, form)

/-- The `defineProperty` trap: throws unconditionally. -/
def proxyDefineProperty (form : JSVal) (_prevPath : List FieldName)
    (_k : ProxyProp) : Except DirectMutationError Unit × JSVal :=
  (.error ⟨directMutationMsg⟩, form)

/-- The `deleteProperty` trap: throws unconditionally. -/
def proxyDeleteProperty (form : JSVal) (_prevPath : List FieldName)
    (_k : ProxyProp) : Except DirectMutationError Unit × JSVal :=
  (.error ⟨directMutationMsg⟩, form)

/-- The `setPrototypeOf` trap: throws unconditionally. -/
def proxySetPrototypeOf (form : JSVal) (_prevPath : List FieldName)
    (_proto : JSVal) : Except DirectMutationError Unit × JSVal :=
  (.error ⟨directMutationMsg⟩, form)

/-! ### The path-indexed trie `FieldsMap`

`type Fields<TValue> = Map<FieldName, Fields<TValue>>` in the source is an
insertion-ordered map in which the module-private sentinel symbol `selfRef`
holds the node's own payload and string keys hold child nodes.  The model
separates the sentinel entry (`payload`) from the string-keyed entries
(`children`); the position of the sentinel entry inside the underlying
`Map`'s insertion order is not tracked, which only affects the order — not
the membership — of `getAllNested`'s output.  The payload type `V` stays
opaque as in the generic class; the dynamic checks the source performs on
payloads (`if(!value)` truthiness, `isMap`) are passed in explicitly where
an operation needs them. -/

/-- A `FieldsMap` trie node. -/
inductive Fields (V : Type) where
  | mk (payload : Option V) (children : List (String × Fields V))

/-- The entry stored under the sentinel key. -/
def Fields.payload {V : Type} : Fields V → Option V
  | .mk p _ => p

/-- The string-keyed entries, in insertion order. -/
def Fields.children {V : Type} : Fields V → List (String × Fields V)
  | .mk _ c => c

/-- A trie key after the normalization done by `mapGetter` / `mapSetter`:
`typeof key !== 'symbol'` keys pass through `String(key)`; the sentinel
symbol is left alone and keeps identity-based equality. -/
inductive TrieKey where
  | str (s : String)
  | selfK
deriving DecidableEq, Repr

/-- The normalization of `mapGetter` / `mapSetter` applied to a segment. -/
def normKey : FieldName → TrieKey
  | .str s => .str s
  | .num n => .str (toString n)
  | .selfRef => .selfK

/-- Lookup among the string-keyed entries of a node. -/
def childLookup {V : Type} : List (String × Fields V) → String → Option (Fields V)
  | [], _ => none
  | (k', c) :: rest, k => if k' = k then some c else childLookup rest k

/-- Update among the string-keyed entries: an existing key keeps its
position, a new key is appended (`Map.set` semantics). -/
def childUpd {V : Type} : List (String × Fields V) → String → Fields V → List (String × Fields V)
  | [], k, c => [(k, c)]
  | (k', c') :: rest, k, c =>
      if k' = k then (k, c) :: rest else (k', c') :: childUpd rest k c

/-- An intermediate value of a trie walk: `undefined`, a child node, or a
stored payload. -/
inductive TrieVal (V : Type) where
  | undefVal
  | node (n : Fields V)
  | leaf (v : V)

/-- One `mapGetter` step on a node: `map.get(String(key))` for non-symbol
keys, `map.get(selfRef)` for the sentinel. -/
def Fields.lookupKey {V : Type} (n : Fields V) (k : FieldName) : TrieVal V :=
  match normKey k with
  | .selfK =>
      match n.payload with
      | some v => .leaf v
      | none => .undefVal
  | .str s =>
      match childLookup n.children s with
      | some c => .node c
      | none => .undefVal

/-- `getIn(fields, path, mapGetter)`: the same walk as `getIn`,
instantiated at the trie accessor.  A nullish (missing) intermediate
short-circuits to `undefined`; calling `.get` on a stored payload — a value
of the opaque type `V`, not a `Map` — throws, hence the error case. -/
def trieGetIn {V : Type} (cur : TrieVal V) (path : List FieldName) :
    Except JsErr (TrieVal V) :=
  match path with
  | [] => .ok cur
  | k :: rest =>
      match cur with
      | .undefVal => .ok .undefVal
      | .leaf _ => .error .typeError
      | .node n => trieGetIn (n.lookupKey k) rest

namespace FieldsMap

/-- The empty trie: `private fields = new Map()`. -/
def empty (V : Type) : Fields V := .mk none []

/-- `get(path)`: append the sentinel and walk; the payload if the walk ends
on one, `undefined` otherwise.  For sentinel-free `path` no error can
occur. -/
def get {V : Type} (m : Fields V) (path : List FieldName) :
    Except JsErr (Option V) :=
  match trieGetIn (.node m) (path ++ [.selfRef]) with
  | .ok (.leaf v) => .ok (some v)
  | .ok _ => .ok none
  | .error e => .error e

/-- The walk of `setIn(fields, [...path, selfRef], value, () => new Map(),
mapGetter, mapSetter)`, with the phases merged into one recursion: the
appended sentinel is the final segment, so the walk runs over the original
`path` (creating missing child `Map`s) and the final write stores the
payload under the sentinel key of the last node reached.  The source
mutates nodes in place; the model rebuilds them, which coincides under
value semantics.  A sentinel segment inside `path` cannot be produced by
clients (the symbol is module-private) and is not representable with an
opaque payload type; it is modelled as a thrown `TypeError`. -/
def setGo {V : Type} (m : Fields V) (mid : List FieldName) (v : V) :
    Except JsErr (Fields V) :=
  match mid with
  | [] => .ok (.mk (some v) m.children)
  | k :: rest =>
      match normKey k with
      | .selfK => .error .typeError
      | .str s =>
          let child := (childLookup m.children s).getD (.mk none [])
          match setGo child rest v with
          | .error e => .error e
          | .ok c => .ok (.mk m.payload (childUpd m.children s c))

/-- `set(path, value)`: store `value` at exactly `path`, auto-creating
intermediate nodes. -/
def set {V : Type} (m : Fields V) (path : List FieldName) (v : V) :
    Except JsErr (Fields V) :=
  setGo m path v

/-- `keys(path)`: the keys of the node at `path` (no sentinel appended)
with the sentinel filtered out — in the model the payload entry is the
filtered-out sentinel, so the children's keys are returned; `[]` when the
node is absent.  On a payload hit the source's `map.keys()` call would
throw. -/
def keys {V : Type} (m : Fields V) (path : List FieldName) :
    Except JsErr (List FieldName) :=
  match trieGetIn (.node m) path with
  | .ok (.node n) => .ok (n.children.map (fun kc => FieldName.str kc.1))
  | .ok .undefVal => .ok []
  | .ok (.leaf _) => .error .typeError
  | .error e => .error e

mutual

/-- The `explore` recursion of `getAllNested`: push the node's own payload
— the sentinel entry — unless it is falsy (`if(!value) return;`), and
recurse into each child while `maxDepth` is absent or `depth < maxDepth`.
Child nodes are `Map`s and therefore always truthy.  The model lists a
node's payload before its children; the source's order interleaves by
insertion, which no claim depends on. -/
def explore {V : Type} (truthy : V → Bool) (maxDepth : Option Nat) :
    Fields V → Nat → List V
  | .mk payload children, depth =>
      (match payload with
       | some v => if truthy v then [v] else []
       | none => []) ++
      (if (match maxDepth with | none => true | some md => depth < md) then
        exploreChildren truthy maxDepth children (depth + 1)
      else [])

/-- `explore` over the child list, left to right. -/
def exploreChildren {V : Type} (truthy : V → Bool) (maxDepth : Option Nat) :
    List (String × Fields V) → Nat → List V
  | [], _ => []
  | (_, c) :: rest, depth =>
      explore truthy maxDepth c depth ++ exploreChildren truthy maxDepth rest depth

end

/-- `getAllNested(path, maxDepth?)`: the node at `path` (no sentinel
appended); `[]` when it is absent; otherwise `explore` from depth 0.
`truthy` is JS truthiness at the payload type. -/
def getAllNested {V : Type} (truthy : V → Bool) (m : Fields V)
    (path : List FieldName) (maxDepth : Option Nat) : Except JsErr (List V) :=
  match trieGetIn (.node m) path with
  | .ok (.node n) => .ok (explore truthy maxDepth n 0)
  | .ok .undefVal => .ok []
  | .ok (.leaf _) => .error .typeError
  | .error e => .error e

/-- `has(path)`: `get(path) !== undefined`. -/
def has {V : Type} (m : Fields V) (path : List FieldName) :
    Except JsErr Bool :=
  match get m path with
  | .ok r => .ok r.isSome
  | .error e => .error e

/-- Replace the payload stored at `path`, used to model the in-place
mutation `delete` performs through the payload reference returned by `get`;
the trie is unchanged when the path is missing (only invoked after a
successful `get` of this very payload). -/
def writePayload {V : Type} (m : Fields V) (path : List FieldName) (v : V) :
    Fields V :=
  match path with
  | [] => .mk (some v) m.children
  | k :: rest =>
      match normKey k with
      | .selfK => m
      | .str s =>
          match childLookup m.children s with
          | some c => .mk m.payload (childUpd m.children s (writePayload c rest v))
          | none => m

/-- `delete(path)` as the source implements it: fetch `this.get(path.slice
(0, -1))` — the payload stored at the parent path, because `get` appends
the sentinel — and, when that payload is itself a `Map` (`isMap`), delete
the raw (unnormalized) last segment from it; otherwise do nothing.
`isMapV` and `mapDel` model the `isMap` test and the `Map.prototype.delete`
call at the payload type; for a payload type with no `Map` values, `isMapV`
is constantly false.  `path[path.length - 1]` is `undefined` for the empty
path, hence the `Option` passed to `mapDel`. -/
def delete {V : Type} (isMapV : V → Bool) (mapDel : V → Option FieldName → V)
    (m : Fields V) (path : List FieldName) : Except JsErr (Fields V) :=
  match get m path.dropLast with
  | .error e => .error e
  | .ok none => .ok m
  | .ok (some ref) =>
      if isMapV ref then
        .ok (writePayload m path.dropLast (mapDel ref path.getLast?))
      else .ok m

end FieldsMap

/-! ### The misuse check of `useForm.field` (hooks.ts) -/

/-- Whether `Number(s)` is an actual number (not NaN) for a string `s`,
under a simplified grammar: the empty or all-whitespace string coerces to
0; otherwise an optional sign followed by digits with at most one decimal
point.  Hexadecimal, exponent and `Infinity` forms are not modelled — no
claim involves them. -/
def strNumeric (s : String) : Bool :=
  let t := ((s.toList.dropWhile Char.isWhitespace).reverse.dropWhile
    Char.isWhitespace).reverse
  match t with
  | [] => true
  | c :: rest =>
      let core := if c == '-' || c == '+' then rest else c :: rest
      core.any Char.isDigit &&
        core.all (fun ch => ch.isDigit || ch == '.') &&
        decide ((core.filter (fun ch => ch == '.')).length ≤ 1)

/-- The coercing global `isNaN`: whether `Number(value)` is NaN.
`undefined` coerces to NaN; `null`, booleans and numbers never do; strings
coerce through the numeric grammar; a plain object's default string form
`"[object Object]"` is never numeric; an array coerces through its joined
string form — approximated: an empty array gives 0 and a non-empty array
counts as non-numeric (in JS a singleton such as `[5]` coerces to its
element; no claim involves arrays here); callables and class instances
have non-numeric string forms. -/
def jsIsNaN : JSVal → Bool
  | .undefVal => true
  | .nullVal => false
  | .bool _ => false
  | .num _ => false
  | .nan => true
  | .str s => !strNumeric s
  | .obj _ => true
  | .arr [] => false
  | .arr _ => true
  | .funcVal _ => true
  | .classObj _ => true

/-- Strict equality `===` restricted to what the misuse check can observe:
value equality on primitives, with NaN not equal to anything including
itself.  Two composite values compare by reference identity in JS; the
model carries no identities and no claim's verdict depends on a composite
comparison, so composites compare `false` — the behavior of two distinct
literals. -/
def jsStrictEq : JSVal → JSVal → Bool
  | .undefVal, .undefVal => true
  | .nullVal, .nullVal => true
  | .bool a, .bool b => a == b
  | .num a, .num b => a == b
  | .str a, .str b => a == b
  | _, _ => false

/-- The sanity check of `useForm.field`: with `fieldValue =
getIn(formState, fieldPath)`, the `Incorrect field access.` error is thrown
iff `fieldValue !== value && !(isNaN(fieldValue) && isNaN(value))`. -/
def fieldCheckThrows (formState : JSVal) (fieldPath : List FieldName)
    (value : JSVal) : Bool :=
  let fieldValue := getIn formState fieldPath
  !jsStrictEq fieldValue value && !(jsIsNaN fieldValue && jsIsNaN value)

/-! ### Normalized-path forms of the trie operations

Client paths never contain the sentinel (the symbol is module-private), and
on such paths every trie operation factors through the `String`-normalized
segment list.  The following pure functions are those factorizations; the
agreement lemmas in the theorem section connect them to the operations
above, and the inductive proofs run on this layer. -/

/-- A path with no sentinel segment — the shape of every client path. -/
def SentinelFree (p : List FieldName) : Prop := FieldName.selfRef ∉ p

/-- The canonical string of a non-sentinel segment (`String(key)`); the
sentinel never reaches this function on a sentinel-free path. -/
def keyStr : FieldName → String
  | .str s => s
  | .num n => toString n
  | .selfRef => ""

/-- A path's canonical string form. -/
def strPath (p : List FieldName) : List String := p.map keyStr

/-- The node reached from `n` by the normalized path `ks`. -/
def nodeAtP {V : Type} : Fields V → List String → Option (Fields V)
  | n, [] => some n
  | n, k :: rest =>
      match childLookup n.children k with
      | some c => nodeAtP c rest
      | none => none

/-- The payload stored `q` below `n`. -/
def subPayload {V : Type} (n : Fields V) (q : List String) : Option V :=
  match nodeAtP n q with
  | some c => c.payload
  | none => none

/-- The normalized-path form of `set`. -/
def setP {V : Type} : Fields V → List String → V → Fields V
  | m, [], v => .mk (some v) m.children
  | m, k :: rest, v =>
      let child := (childLookup m.children k).getD (.mk none [])
      .mk m.payload (childUpd m.children k (setP child rest v))

/-- Whether a node at depth `d` below the query root may hand its own
payload to `getAllNested`'s result under the bound `maxDepth`: always for
the root itself, and otherwise only when every ancestor was explored, i.e.
`d ≤ maxDepth`. -/
def depthOk (maxDepth : Option Nat) (d : Nat) : Prop :=
  match maxDepth with
  | none => True
  | some md => d ≤ md

/-- Structural induction over trie nodes, recursing through the child
list. -/
def Fields.induct {V : Type} {motive : Fields V → Prop}
    (h : ∀ (p : Option V) (cs : List (String × Fields V)),
      (∀ kc ∈ cs, motive kc.2) → motive (.mk p cs)) :
    ∀ n, motive n
  | .mk p cs => h p cs (fun kc _hkc => Fields.induct h kc.2)
termination_by n => sizeOf n
decreasing_by
  have h1 : sizeOf kc < sizeOf cs := List.sizeOf_lt_of_mem _hkc
  cases kc with
  | mk k c => simp at h1 ⊢; omega

/-- Segment-level canonicalization, the claim-facing face of `normKey`:
numeric segments are replaced by their canonical string form, string
segments are untouched, the sentinel is untouched (identity-based
equality). -/
def canonSeg : FieldName → FieldName
  | .str s => .str s
  | .num n => .str (toString n)
  | .selfRef => .selfRef

/-- Path-level canonicalization. -/
def canonPath (p : List FieldName) : List FieldName := p.map canonSeg

mutual

/-- No duplicate keys among the string-keyed entries: a JS `Map` holds each
key at most once, an invariant the assoc-list model carries explicitly.
Every trie the class builds (from `new Map()` through `set`) satisfies
it. -/
def nodupKeys {V : Type} : List (String × Fields V) → Bool
  | [] => true
  | (k, _) :: rest => (childLookup rest k).isNone && nodupKeys rest

/-- All child nodes well-formed. -/
def childrenWf {V : Type} : List (String × Fields V) → Bool
  | [] => true
  | (_, c) :: rest => Fields.wf c && childrenWf rest

/-- Well-formedness of a trie node: unique child keys, recursively. -/
def Fields.wf {V : Type} : Fields V → Bool
  | .mk _ cs => nodupKeys cs && childrenWf cs

end

/-- The snapshot of the facade examples: `{user: {name: "x", age: 3}}`,
inner object first. -/
def userInner : JSVal := .obj [(.str "name", .str "x"), (.str "age", .num 3)]

/-- The snapshot of the facade examples. -/
def userSnapshot : JSVal := .obj [(.str "user", userInner)]

/-! ## Theorems

General lemmas first, then one theorem per claim (with its witness or
counterexample where applicable). -/

theorem trieGetIn_undefVal {V : Type} (path : List FieldName) :
    trieGetIn (V := V) .undefVal path = .ok .undefVal := by
  cases path <;> rfl

theorem normKey_eq_str {k : FieldName} (h : k ≠ .selfRef) :
    normKey k = .str (keyStr k) := by
  cases k with
  | str s => rfl
  | num n => rfl
  | selfRef => exact absurd rfl h

theorem sentinelFree_head {k : FieldName} {rest : List FieldName}
    (h : SentinelFree (k :: rest)) : k ≠ .selfRef := by
  intro hk
  exact h (by simp [hk])

theorem sentinelFree_tail {k : FieldName} {rest : List FieldName}
    (h : SentinelFree (k :: rest)) : SentinelFree rest :=
  fun hm => h (List.mem_cons_of_mem _ hm)

theorem trieGetIn_node_sentinelFree {V : Type} (p : List FieldName)
    (hp : SentinelFree p) (m : Fields V) :
    trieGetIn (.node m) p = .ok (match nodeAtP m (strPath p) with
      | some n => TrieVal.node n
      | none => TrieVal.undefVal) := by
  induction p generalizing m with
  | nil => rfl
  | cons k rest ih =>
      have hk : k ≠ .selfRef := sentinelFree_head hp
      show trieGetIn (m.lookupKey k) rest = _
      rw [Fields.lookupKey, normKey_eq_str hk]
      rcases h : childLookup m.children (keyStr k) with _ | c
      · simp only [trieGetIn_undefVal, strPath, List.map_cons, nodeAtP, h]
      · simpa only [strPath, List.map_cons, nodeAtP, h] using
          ih (sentinelFree_tail hp) c

theorem trieGetIn_append {V : Type} (cur : TrieVal V)
    (p q : List FieldName) :
    trieGetIn cur (p ++ q) = (match trieGetIn cur p with
      | .ok r => trieGetIn r q
      | .error e => .error e) := by
  induction p generalizing cur with
  | nil => rfl
  | cons k rest ih =>
      cases cur with
      | undefVal => simp only [List.cons_append, trieGetIn, trieGetIn_undefVal]
      | leaf v => rfl
      | node n => simpa only [List.cons_append, trieGetIn] using ih (n.lookupKey k)

theorem get_spec {V : Type} (m : Fields V) (p : List FieldName)
    (hp : SentinelFree p) :
    FieldsMap.get m p = .ok (subPayload m (strPath p)) := by
  unfold FieldsMap.get
  rw [trieGetIn_append, trieGetIn_node_sentinelFree p hp m]
  rcases h : nodeAtP m (strPath p) with _ | n
  · simp only [subPayload, h, trieGetIn_undefVal]
  · simp only [subPayload, h]
    show (match trieGetIn (TrieVal.node n) [FieldName.selfRef] with
      | .ok (.leaf v) => Except.ok (some v)
      | .ok _ => Except.ok none
      | .error e => Except.error e) = Except.ok n.payload
    rcases hpay : n.payload with _ | v
    · simp [trieGetIn, Fields.lookupKey, normKey, hpay]
    · simp [trieGetIn, Fields.lookupKey, normKey, hpay]

theorem setGo_spec {V : Type} (mid : List FieldName) (m : Fields V) (v : V)
    (hp : SentinelFree mid) :
    FieldsMap.setGo m mid v = .ok (setP m (strPath mid) v) := by
  induction mid generalizing m with
  | nil => rfl
  | cons k rest ih =>
      have hk : k ≠ .selfRef := sentinelFree_head hp
      simp only [FieldsMap.setGo, normKey_eq_str hk, strPath, List.map_cons,
        setP]
      rw [ih _ (sentinelFree_tail hp)]
      rfl

theorem set_spec {V : Type} (m : Fields V) (p : List FieldName) (v : V)
    (hp : SentinelFree p) :
    FieldsMap.set m p v = .ok (setP m (strPath p) v) :=
  setGo_spec p m v hp

theorem keys_spec {V : Type} (m : Fields V) (p : List FieldName)
    (hp : SentinelFree p) :
    FieldsMap.keys m p = .ok (match nodeAtP m (strPath p) with
      | some n => n.children.map (fun kc => FieldName.str kc.1)
      | none => []) := by
  unfold FieldsMap.keys
  rw [trieGetIn_node_sentinelFree p hp m]
  rcases h : nodeAtP m (strPath p) with _ | n <;> simp

theorem getAllNested_spec {V : Type} (truthy : V → Bool) (m : Fields V)
    (p : List FieldName) (maxDepth : Option Nat) (hp : SentinelFree p) :
    FieldsMap.getAllNested truthy m p maxDepth =
      .ok (match nodeAtP m (strPath p) with
        | some n => FieldsMap.explore truthy maxDepth n 0
        | none => []) := by
  unfold FieldsMap.getAllNested
  rw [trieGetIn_node_sentinelFree p hp m]
  rcases h : nodeAtP m (strPath p) with _ | n <;> simp

theorem childLookup_childUpd {V : Type} (cs : List (String × Fields V))
    (k k' : String) (c : Fields V) :
    childLookup (childUpd cs k c) k' =
      if k = k' then some c else childLookup cs k' := by
  induction cs with
  | nil =>
      by_cases h : k = k' <;> simp [childUpd, childLookup, h]
  | cons kc rest ih =>
      obtain ⟨k0, c0⟩ := kc
      by_cases h0 : k0 = k
      · subst h0
        by_cases h : k0 = k' <;> simp [childUpd, childLookup, h]
      · by_cases h : k0 = k'
        · subst h
          have hk : ¬k = k0 := fun h' => h0 h'.symm
          simp [childUpd, childLookup, h0, hk]
        · simp [childUpd, childLookup, h0, h, ih]

theorem subPayload_nil {V : Type} (n : Fields V) :
    subPayload n [] = n.payload := rfl

theorem subPayload_cons {V : Type} (n : Fields V) (k : String)
    (q : List String) :
    subPayload n (k :: q) = (match childLookup n.children k with
      | some c => subPayload c q
      | none => none) := by
  rcases h : childLookup n.children k with _ | c <;>
    simp [subPayload, nodeAtP, h]

theorem subPayload_setP_self {V : Type} (ks : List String) (m : Fields V)
    (v : V) : subPayload (setP m ks v) ks = some v := by
  induction ks generalizing m with
  | nil => rfl
  | cons k rest ih =>
      rw [setP, subPayload_cons]
      simp only [Fields.children, childLookup_childUpd, if_pos rfl]
      exact ih _

theorem subPayload_setP_fresh {V : Type} (ks qs : List String) (v : V)
    (h : ks ≠ qs) :
    subPayload (setP (Fields.mk none []) ks v) qs = none := by
  induction ks generalizing qs with
  | nil =>
      cases qs with
      | nil => exact absurd rfl h
      | cons q qrest => simp [setP, subPayload_cons, childLookup]
  | cons k rest ih =>
      cases qs with
      | nil => simp [setP, subPayload_nil, Fields.payload]
      | cons q qrest =>
          rw [setP, subPayload_cons]
          simp only [Fields.children, childLookup]
          by_cases hk : k = q
          · subst hk
            have hrest : rest ≠ qrest := fun he => h (by rw [he])
            simp only [childLookup_childUpd, childLookup, if_pos rfl]
            exact ih qrest hrest
          · simp [childLookup_childUpd, childLookup, hk]

theorem Fields.children_mk {V : Type} (p : Option V)
    (cs : List (String × Fields V)) : (Fields.mk p cs).children = cs := rfl

theorem Fields.payload_mk {V : Type} (p : Option V)
    (cs : List (String × Fields V)) : (Fields.mk p cs).payload = p := rfl

theorem subPayload_setP_frame {V : Type} (ks qs : List String)
    (m : Fields V) (v : V) (h : ks ≠ qs) :
    subPayload (setP m ks v) qs = subPayload m qs := by
  induction ks generalizing m qs with
  | nil =>
      cases qs with
      | nil => exact absurd rfl h
      | cons q qrest =>
          obtain ⟨p0, cs⟩ := m
          rw [setP, subPayload_cons, subPayload_cons]
          simp only [Fields.children_mk]
  | cons k rest ih =>
      obtain ⟨p0, cs⟩ := m
      cases qs with
      | nil =>
          rw [setP, subPayload_nil, subPayload_nil]
          simp only [Fields.payload_mk]
      | cons q qrest =>
          rw [setP, subPayload_cons, subPayload_cons]
          simp only [Fields.children_mk, childLookup_childUpd]
          by_cases hk : k = q
          · subst hk
            have hrest : rest ≠ qrest := fun he => h (by rw [he])
            simp only [if_pos rfl]
            rcases hc : childLookup cs k with _ | c
            · simp only [Option.getD_none]
              exact subPayload_setP_fresh rest qrest v hrest
            · simp only [Option.getD_some]
              exact ih qrest c hrest
          · simp [hk]

theorem childLookup_mem {V : Type} {cs : List (String × Fields V)}
    {k : String} {c : Fields V} (h : childLookup cs k = some c) :
    (k, c) ∈ cs := by
  induction cs with
  | nil => simp [childLookup] at h
  | cons kc rest ih =>
      obtain ⟨k0, c0⟩ := kc
      by_cases h0 : k0 = k
      · subst h0
        have hc : c0 = c := by simpa [childLookup] using h
        subst hc
        exact List.mem_cons_self _ _
      · simp only [childLookup, if_neg h0] at h
        exact List.mem_cons_of_mem _ (ih h)

theorem mem_childLookup {V : Type} {cs : List (String × Fields V)}
    {k : String} {c : Fields V} (hnd : nodupKeys cs = true)
    (h : (k, c) ∈ cs) : childLookup cs k = some c := by
  induction cs with
  | nil => simp at h
  | cons kc rest ih =>
      obtain ⟨k0, c0⟩ := kc
      simp only [nodupKeys, Bool.and_eq_true] at hnd
      rcases List.mem_cons.mp h with heq | hmem
      · obtain ⟨rfl, rfl⟩ := Prod.mk.injEq .. |>.mp heq
        simp [childLookup]
      · by_cases h0 : k0 = k
        · subst h0
          have hlk := ih hnd.2 hmem
          rw [hlk] at hnd
          simp at hnd
        · simp only [childLookup, if_neg h0]
          exact ih hnd.2 hmem

theorem childrenWf_mem {V : Type} {cs : List (String × Fields V)}
    {kc : String × Fields V} (hwf : childrenWf cs = true) (h : kc ∈ cs) :
    kc.2.wf = true := by
  induction cs with
  | nil => simp at h
  | cons kc0 rest ih =>
      obtain ⟨k0, c0⟩ := kc0
      simp only [childrenWf, Bool.and_eq_true] at hwf
      rcases List.mem_cons.mp h with rfl | hmem
      · exact hwf.1
      · exact ih hwf.2 hmem

theorem wf_mk_iff {V : Type} (p : Option V) (cs : List (String × Fields V)) :
    (Fields.mk p cs).wf = true ↔
      (nodupKeys cs = true ∧ childrenWf cs = true) := by
  simp [Fields.wf]

theorem wf_childLookup {V : Type} {cs : List (String × Fields V)}
    {p : Option V} {k : String} {c : Fields V}
    (hwf : (Fields.mk p cs).wf = true) (h : childLookup cs k = some c) :
    c.wf = true :=
  childrenWf_mem ((wf_mk_iff p cs).mp hwf).2 (childLookup_mem h)

theorem wf_nodeAtP {V : Type} {m n : Fields V} {ks : List String}
    (hwf : m.wf = true) (h : nodeAtP m ks = some n) : n.wf = true := by
  induction ks generalizing m with
  | nil =>
      simp only [nodeAtP, Option.some.injEq] at h
      subst h
      exact hwf
  | cons k rest ih =>
      obtain ⟨p, cs⟩ := m
      simp only [nodeAtP, Fields.children_mk] at h
      rcases hc : childLookup cs k with _ | c
      · rw [hc] at h
        simp at h
      · rw [hc] at h
        exact ih (wf_childLookup hwf hc) h

theorem mem_payloadList {V : Type} (truthy : V → Bool) (p : Option V)
    (v : V) :
    (v ∈ (match p with
      | some w => if truthy w then [w] else []
      | none => ([] : List V))) ↔ (p = some v ∧ truthy v = true) := by
  rcases p with _ | w
  · simp
  · by_cases ht : truthy w
    · simp only [if_pos ht, List.mem_singleton, Option.some.injEq]
      constructor
      · rintro rfl
        exact ⟨rfl, ht⟩
      · rintro ⟨rfl, _⟩
        rfl
    · simp only [if_neg ht, List.not_mem_nil, false_iff, not_and,
        Option.some.injEq]
      rintro rfl
      simp [ht]

theorem mem_exploreChildren {V : Type} (truthy : V → Bool)
    (md : Option Nat) (v : V) (cs : List (String × Fields V)) (d : Nat) :
    v ∈ FieldsMap.exploreChildren truthy md cs d ↔
      ∃ kc ∈ cs, v ∈ FieldsMap.explore truthy md kc.2 d := by
  induction cs with
  | nil => simp [FieldsMap.exploreChildren]
  | cons kc rest ih =>
      obtain ⟨k, c⟩ := kc
      rw [FieldsMap.exploreChildren]
      simp only [List.mem_append, ih, List.mem_cons]
      constructor
      · rintro (hv | ⟨kc, hkc, hv⟩)
        · exact ⟨(k, c), Or.inl rfl, hv⟩
        · exact ⟨kc, Or.inr hkc, hv⟩
      · rintro ⟨kc, (rfl | hkc), hv⟩
        · exact Or.inl hv
        · exact Or.inr ⟨kc, hkc, hv⟩

theorem mem_explore {V : Type} (truthy : V → Bool) (md : Option Nat)
    (v : V) :
    ∀ n : Fields V, n.wf = true → ∀ d : Nat,
      (v ∈ FieldsMap.explore truthy md n d ↔
        ∃ q : List String, subPayload n q = some v ∧ truthy v = true ∧
          (q = [] ∨ depthOk md (d + q.length))) := by
  intro n
  induction n using Fields.induct with
  | h p cs ihcs =>
      intro hwf d
      obtain ⟨hnd, hcw⟩ := (wf_mk_iff p cs).mp hwf
      rw [FieldsMap.explore.eq_def, List.mem_append]
      constructor
      · rintro (hpay | hkids)
        · obtain ⟨hp, ht⟩ := (mem_payloadList truthy p v).mp hpay
          exact ⟨[], by simpa [subPayload_nil, Fields.payload_mk] using hp,
            ht, Or.inl rfl⟩
        · rcases hsplit : (match md with
            | none => true
            | some mb => decide (d < mb)) with hfalse | htrue
          · rw [hsplit] at hkids
            simp at hkids
          · rw [hsplit] at hkids
            simp only [if_true] at hkids
            rcases (mem_exploreChildren truthy md v cs (d + 1)).mp hkids
              with ⟨⟨k, c⟩, hkc, hv⟩
            have hcwf : c.wf = true := childrenWf_mem hcw hkc
            rcases (ihcs (k, c) hkc hcwf (d + 1)).mp hv with ⟨q', hsp, ht, hdep⟩
            refine ⟨k :: q', ?_, ht, Or.inr ?_⟩
            · rw [subPayload_cons, Fields.children_mk, mem_childLookup hnd hkc]
              exact hsp
            · rcases md with _ | mb
              · simp [depthOk]
              · simp only [depthOk, List.length_cons]
                simp only [decide_eq_true_eq] at hsplit
                rcases hdep with rfl | hle
                · simp only [List.length_nil]
                  omega
                · simp only [depthOk] at hle
                  omega
      · rintro ⟨q, hsp, ht, hdep⟩
        cases q with
        | nil =>
            left
            exact (mem_payloadList truthy p v).mpr
              ⟨by simpa [subPayload_nil, Fields.payload_mk] using hsp, ht⟩
        | cons k q' =>
            right
            rw [subPayload_cons, Fields.children_mk] at hsp
            rcases hc : childLookup cs k with _ | c
            · rw [hc] at hsp
              simp at hsp
            · rw [hc] at hsp
              have hdep' : depthOk md (d + q'.length + 1) := by
                rcases hdep with h' | h'
                · cases h'
                · rcases md with _ | mb
                  · simp [depthOk]
                  · simp only [depthOk, List.length_cons] at h' ⊢
                    omega
              have hcwf : c.wf = true := wf_childLookup hwf hc
              have hmem := (mem_exploreChildren truthy md v cs (d + 1)).mpr
                ⟨(k, c), childLookup_mem hc,
                  (ihcs (k, c) (childLookup_mem hc) hcwf (d + 1)).mpr
                    ⟨q', hsp, ht, Or.inr (by
                      rcases md with _ | mb
                      · simp [depthOk]
                      · simp only [depthOk] at hdep' ⊢
                        omega)⟩⟩
              rcases md with _ | mb
              · simpa using hmem
              · have hg : d < mb := by
                  simp only [depthOk] at hdep'
                  omega
                simp [hg, hmem]

theorem wf_empty (V : Type) : (FieldsMap.empty V).wf = true := by
  simp [FieldsMap.empty, Fields.wf, nodupKeys, childrenWf]

theorem nodupKeys_childUpd {V : Type} {cs : List (String × Fields V)}
    (k : String) (c : Fields V) (hnd : nodupKeys cs = true) :
    nodupKeys (childUpd cs k c) = true := by
  induction cs with
  | nil => simp [childUpd, nodupKeys, childLookup]
  | cons kc rest ih =>
      obtain ⟨k0, c0⟩ := kc
      simp only [nodupKeys, Bool.and_eq_true] at hnd
      by_cases h0 : k0 = k
      · subst h0
        simp only [childUpd, if_pos rfl, nodupKeys, Bool.and_eq_true]
        exact hnd
      · simp only [childUpd, if_neg h0, nodupKeys, Bool.and_eq_true]
        refine ⟨?_, ih hnd.2⟩
        rw [childLookup_childUpd]
        have : ¬k = k0 := fun h' => h0 h'.symm
        simp only [if_neg this]
        exact hnd.1

theorem childrenWf_childUpd {V : Type} {cs : List (String × Fields V)}
    (k : String) (c : Fields V) (hcw : childrenWf cs = true)
    (hc : c.wf = true) : childrenWf (childUpd cs k c) = true := by
  induction cs with
  | nil => simp [childUpd, childrenWf, hc]
  | cons kc rest ih =>
      obtain ⟨k0, c0⟩ := kc
      simp only [childrenWf, Bool.and_eq_true] at hcw
      by_cases h0 : k0 = k
      · subst h0
        simp only [childUpd, if_pos rfl, childrenWf, Bool.and_eq_true]
        exact ⟨hc, hcw.2⟩
      · simp only [childUpd, if_neg h0, childrenWf, Bool.and_eq_true]
        exact ⟨hcw.1, ih hcw.2⟩

theorem wf_setP {V : Type} (ks : List String) (m : Fields V) (v : V)
    (hwf : m.wf = true) : (setP m ks v).wf = true := by
  induction ks generalizing m with
  | nil =>
      obtain ⟨p, cs⟩ := m
      rw [setP]
      rw [wf_mk_iff] at hwf ⊢
      simpa using hwf
  | cons k rest ih =>
      obtain ⟨p, cs⟩ := m
      rw [setP]
      rw [wf_mk_iff] at hwf ⊢
      simp only [Fields.children_mk]
      have hcwf : ((childLookup cs k).getD (Fields.mk none [])).wf = true := by
        rcases hc : childLookup cs k with _ | c
        · simpa using wf_empty V
        · simpa using childrenWf_mem hwf.2 (childLookup_mem hc)
      exact ⟨nodupKeys_childUpd k _ hwf.1,
        childrenWf_childUpd k _ hwf.2 (ih _ hcwf)⟩

theorem keys_sentinel_absent {V : Type} (m : Fields V)
    (p : List FieldName) (r : List FieldName) (hp : SentinelFree p)
    (h : FieldsMap.keys m p = .ok r) : FieldName.selfRef ∉ r := by
  rw [keys_spec m p hp] at h
  rcases hn : nodeAtP m (strPath p) with _ | n
  · rw [hn] at h
    simp only [Except.ok.injEq] at h
    subst h
    simp
  · rw [hn] at h
    simp only [Except.ok.injEq] at h
    subst h
    simp

theorem lookupAssoc_updAssoc (l : List (ObjKey × JSVal)) (k : ObjKey)
    (v : JSVal) : lookupAssoc (updAssoc l k v) k = some v := by
  induction l with
  | nil => simp [updAssoc, lookupAssoc]
  | cons kv rest ih =>
      obtain ⟨k0, v0⟩ := kv
      by_cases h0 : k0 = k
      · subst h0
        simp [updAssoc, lookupAssoc]
      · simp [updAssoc, lookupAssoc, h0, ih]

theorem arrWrite_get (xs : List JSVal) (i : Nat) (v : JSVal) :
    (arrWrite xs i v)[i]? = some v := by
  rw [arrWrite]
  by_cases h : i < xs.length
  · rw [if_pos h]
    exact List.getElem?_set_eq_of_lt v h
  · rw [if_neg h]
    have hlen : xs.length ≤ i := Nat.le_of_not_lt h
    rw [List.append_assoc, List.getElem?_append_right hlen]
    rw [List.getElem?_append_right (by simp)]
    simp

theorem objSetter_roundtrip {obj : JSVal} {k : FieldName} {v obj' : JSVal}
    (h : objSetter obj k v = .ok obj') :
    obj'.isNullish = false ∧ objGetter obj' k = v := by
  cases obj with
  | obj fields =>
      simp only [objSetter, Except.ok.injEq] at h
      subst h
      exact ⟨rfl, by simp [objGetter, lookupAssoc_updAssoc]⟩
  | arr xs =>
      rcases hi : arrIndex? k with _ | i
      · simp only [objSetter, hi] at h
        exact Except.noConfusion h
      · simp only [objSetter, hi, Except.ok.injEq] at h
        subst h
        refine ⟨rfl, ?_⟩
        simp [objGetter, hi, arrWrite_get]
  | undefVal => simp [objSetter] at h
  | nullVal => simp [objSetter] at h
  | bool b => simp [objSetter] at h
  | num n => simp [objSetter] at h
  | nan => simp [objSetter] at h
  | str s => simp [objSetter] at h
  | funcVal i => simp [objSetter] at h
  | classObj i => simp [objSetter] at h

theorem setInGo_getIn (mid : List FieldName) (obj : JSVal)
    (last : FieldName) (v : JSVal) (dflt : Unit → JSVal) (obj' : JSVal)
    (h : setInGo obj mid last v dflt = .ok obj') :
    getIn obj' (mid ++ [last]) = v := by
  induction mid generalizing obj obj' with
  | nil =>
      simp only [setInGo] at h
      obtain ⟨hnn, hget⟩ := objSetter_roundtrip h
      simp [getIn, hnn, hget]
  | cons k rest ih =>
      simp only [setInGo] at h
      by_cases hnull : obj.isNullish = true
      · rw [if_pos hnull] at h
        simp at h
      · rw [if_neg hnull] at h
        rcases hs : setInGo (if (objGetter obj k).isUndef then dflt ()
            else objGetter obj k) rest last v dflt with e | sub
        · rw [hs] at h
          simp at h
        · rw [hs] at h
          simp only at h
          obtain ⟨hnn, hget⟩ := objSetter_roundtrip h
          have hrec := ih _ _ hs
          simp [getIn, hnn, hget, hrec]

theorem normKey_canonSeg (k : FieldName) : normKey (canonSeg k) = normKey k := by
  cases k <;> rfl

theorem lookupKey_canon {V : Type} (n : Fields V) (k : FieldName) :
    n.lookupKey (canonSeg k) = n.lookupKey k := by
  rw [Fields.lookupKey, Fields.lookupKey, normKey_canonSeg]

theorem trieGetIn_canonPath {V : Type} (cur : TrieVal V)
    (p : List FieldName) : trieGetIn cur (canonPath p) = trieGetIn cur p := by
  induction p generalizing cur with
  | nil => rfl
  | cons k rest ih =>
      cases cur with
      | undefVal => rfl
      | leaf v => rfl
      | node n =>
          show trieGetIn (n.lookupKey (canonSeg k)) (canonPath rest) =
            trieGetIn (n.lookupKey k) rest
          rw [lookupKey_canon, ih]

theorem get_canonPath {V : Type} (m : Fields V) (p : List FieldName) :
    FieldsMap.get m (canonPath p) = FieldsMap.get m p := by
  unfold FieldsMap.get
  have hmap : canonPath p ++ [FieldName.selfRef] =
      canonPath (p ++ [FieldName.selfRef]) := by
    simp [canonPath, canonSeg]
  rw [hmap, trieGetIn_canonPath]

theorem setGo_canonPath {V : Type} (p : List FieldName) (m : Fields V)
    (v : V) : FieldsMap.setGo m (canonPath p) v = FieldsMap.setGo m p v := by
  induction p generalizing m with
  | nil => rfl
  | cons k rest ih =>
      show FieldsMap.setGo m (canonSeg k :: canonPath rest) v = _
      rw [FieldsMap.setGo, FieldsMap.setGo, normKey_canonSeg]
      rcases hnk : normKey k with s | _
      · simp only [ih]
      · rfl

/-! ## Claim theorems -/

/-- C1: the claim states that `delete(p)` removes the payload entry for the
last segment of `p` from `p`'s immediate parent node.  The code instead
fetches `this.get(path.slice(0, -1))` — the *payload stored at the parent
path* (since `get` appends the sentinel), not the parent node — and acts
only when that payload is itself a `Map`.  For a `FieldsMap<number>`
(numbers are never `Map`s, so `isMap` is constantly false): after
`set(["a","b"], 1)` and `set(["a"], 2)`, `delete(["a","b"])` leaves the
trie untouched and `get(["a","b"])` still returns `1`, where the claim and
the spec's deletion-scoping test demand the entry be removed. -/
theorem c1_delete_is_noop_on_number_payloads :
    FieldsMap.set (FieldsMap.empty Nat) [.str "a", .str "b"] 1 =
      .ok (Fields.mk none [("a", Fields.mk none [("b", Fields.mk (some 1) [])])]) ∧
    FieldsMap.set
        (Fields.mk none [("a", Fields.mk none [("b", Fields.mk (some 1) [])])])
        [.str "a"] 2 =
      .ok (Fields.mk none [("a", Fields.mk (some 2) [("b", Fields.mk (some 1) [])])]) ∧
    FieldsMap.delete (fun _ => false) (fun w _ => w)
        (Fields.mk none [("a", Fields.mk (some 2) [("b", Fields.mk (some 1) [])])])
        [.str "a", .str "b"] =
      .ok (Fields.mk none [("a", Fields.mk (some 2) [("b", Fields.mk (some 1) [])])]) ∧
    FieldsMap.get
        (Fields.mk none [("a", Fields.mk (some 2) [("b", Fields.mk (some 1) [])])])
        [.str "a", .str "b"] = .ok (some 1) :=
  ⟨rfl, rfl, rfl, rfl⟩

/-- C2, counterexample: on the snapshot `{user: {name: "x", age: 3}}`, the
marker read on the facade for `["user"]` returns the pair whose first
element is the *subtree* `{name: "x", age: 3}` — not the root snapshot
object, as the claim states. -/
theorem c2_marker_counterexample :
    proxyGet userSnapshot [.str "user"] .marker =
      .ok (.markerPair userInner [.str "user"], []) ∧
    userInner ≠ userSnapshot :=
  ⟨rfl, by simp [userInner, userSnapshot]⟩

/-- C2 (amended): for every snapshot and path prefix, reading the private
marker key returns — recording no access — a pair whose second element is
the prefix and whose first element is the value located at that prefix
inside the snapshot (`getIn(form, prefix)`, the `parent` captured by
`createProxy`); it equals the root snapshot only for the empty prefix. -/
theorem c2_marker_returns_subtree (form : JSVal) (pre : List FieldName) :
    proxyGet form pre .marker =
      .ok (.markerPair (getIn form pre) pre, []) := rfl

/-- C3, counterexample: a falsy payload is skipped by `getAllNested`'s
`if(!value) return;` test.  For a `FieldsMap<number>` with JS truthiness
(`0` is falsy): after `set(["a"], 0)` the payload `0` is stored at `["a"]`
(`get` returns it), yet `getAllNested(["a"])` returns the empty sequence,
where the claim demands every stored payload be returned. -/
theorem c3_falsy_payload_counterexample :
    FieldsMap.set (FieldsMap.empty Nat) [.str "a"] 0 =
      .ok (Fields.mk none [("a", Fields.mk (some 0) [])]) ∧
    FieldsMap.get (Fields.mk none [("a", Fields.mk (some 0) [])])
      [.str "a"] = .ok (some 0) ∧
    FieldsMap.getAllNested (fun n => n != 0)
      (Fields.mk none [("a", Fields.mk (some 0) [])]) [.str "a"] none =
      .ok [] := by
  refine ⟨rfl, rfl, ?_⟩
  simp [FieldsMap.getAllNested, trieGetIn, Fields.lookupKey, normKey,
    childLookup, FieldsMap.explore, FieldsMap.exploreChildren]

/-- C3 (amended): for every `FieldsMap`, sentinel-free path `p` and
optional bound, `getAllNested(p, maxDepth?)` succeeds and returns exactly
the *truthy* payloads stored at `p` or at a descendant of `p` within
`maxDepth` levels (falsy payloads are skipped by the `if(!value)` guard);
a node's own payload (relative depth 0) is always eligible regardless of
the bound; the result is empty when `p` is absent.  `m.wf` is the `Map`
key-uniqueness invariant every trie built by the class satisfies. -/
theorem c3_getAllNested_truthy_membership {V : Type} (truthy : V → Bool)
    (m : Fields V) (p : List FieldName) (md : Option Nat)
    (hp : SentinelFree p) (hwf : m.wf = true) :
    ∃ l, FieldsMap.getAllNested truthy m p md = .ok l ∧
      (nodeAtP m (strPath p) = none → l = []) ∧
      ∀ v, v ∈ l ↔ ∃ n0 q, nodeAtP m (strPath p) = some n0 ∧
        subPayload n0 q = some v ∧ truthy v = true ∧
        (q = [] ∨ depthOk md q.length) := by
  rw [getAllNested_spec truthy m p md hp]
  rcases hn : nodeAtP m (strPath p) with _ | n
  · exact ⟨[], rfl, fun _ => rfl, by simp⟩
  · refine ⟨FieldsMap.explore truthy md n 0, rfl, by simp, ?_⟩
    intro v
    rw [mem_explore truthy md v n (wf_nodeAtP hwf hn) 0]
    constructor
    · rintro ⟨q, hsp, ht, hdep⟩
      exact ⟨n, q, rfl, hsp, ht, by simpa using hdep⟩
    · rintro ⟨n0, q, hn0, hsp, ht, hdep⟩
      have heq : n0 = n := by
        injection hn0 with h'
        exact h'.symm
      subst heq
      exact ⟨q, hsp, ht, by simpa using hdep⟩

/-- C4, counterexample: for the empty path the round trip fails.
`deepSet(obj, [], v, factory)` hits neither the one-segment branch nor a
real walk: `path[path.length - 1]` is `undefined`, which as a property key
is the string `"undefined"`, so the write lands at `obj["undefined"]` —
and `deepGet(obj, [])` returns the root object itself, not `v`. -/
theorem c4_empty_path_counterexample :
    setIn (.obj []) [] (.num 1) (fun _ => .obj []) =
      .ok (.obj [(.str "undefined", .num 1)]) ∧
    getIn (.obj [(.str "undefined", .num 1)]) [] =
      .obj [(.str "undefined", .num 1)] ∧
    JSVal.obj [(.str "undefined", .num 1)] ≠ .num 1 :=
  ⟨rfl, rfl, by simp⟩

/-- C4 (amended): for every *non-empty* path `p` and value `v`, whenever
`deepSet(obj, p, v, factory)` completes without a type error — yielding the
updated root `obj'`, with intermediate containers auto-created by the
factory — `deepGet(obj', p)` returns exactly `v`.  (For the empty path the
write lands under the key `"undefined"` and the read returns the root, so
the round trip fails; a run that throws, e.g. on a primitive or nullish
intermediate, never completes the write.) -/
theorem c4_set_get_roundtrip (obj : JSVal) (p : List FieldName)
    (v : JSVal) (dflt : Unit → JSVal) (obj' : JSVal) (hne : p ≠ [])
    (h : setIn obj p v dflt = .ok obj') : getIn obj' p = v := by
  cases p with
  | nil => exact absurd rfl hne
  | cons k rest =>
      cases rest with
      | nil =>
          simp only [setIn] at h
          obtain ⟨hnn, hget⟩ := objSetter_roundtrip h
          simp [getIn, hnn, hget]
      | cons k2 rest2 =>
          have hform : setIn obj (k :: k2 :: rest2) v dflt =
              setInGo obj ((k :: k2 :: rest2).dropLast)
                (lastSeg (k :: k2 :: rest2)) v dflt := rfl
          rw [hform] at h
          have hne2 : (k :: k2 :: rest2) ≠ [] := by simp
          have hlast : lastSeg (k :: k2 :: rest2) =
              (k :: k2 :: rest2).getLast hne2 := by
            rw [lastSeg, List.getLast?_eq_getLast_of_ne_nil hne2]
            rfl
          have hsplit : (k :: k2 :: rest2).dropLast ++
              [lastSeg (k :: k2 :: rest2)] = k :: k2 :: rest2 := by
            rw [hlast]
            exact List.dropLast_append_getLast hne2
          rw [← hsplit]
          exact setInGo_getIn _ _ _ _ _ _ h

/-- C5: reading through a facade records terminal reads only.  With
`parent = getIn(form, prevPath)` non-nullish and `value = parent[prop]`:
a container-valued property (array or plain object) returns a fresh child
facade for the extended path and records no access, while any other value
records exactly `prevPath ++ [prop]` (a callable additionally coming back
bound).  On the snapshot `{user: {name: "x", age: 3}}`: reading `user`
alone records nothing and yields a facade, and the subsequent read of
`name` on that facade records exactly `["user","name"]`. -/
theorem c5_read_tracking (form : JSVal) (prevPath : List FieldName)
    (s : String) (value : JSVal)
    (hnn : (getIn form prevPath).isNullish = false)
    (hv : objGetter (getIn form prevPath) (.str s) = value) :
    ((isJsArray value || isPlainObject value) = true →
      proxyGet form prevPath (.prop s) =
        .ok (.facade (prevPath ++ [.str s]), [])) ∧
    ((isJsArray value || isPlainObject value) = false →
      ∃ r, proxyGet form prevPath (.prop s) =
        .ok (r, [prevPath ++ [.str s]])) ∧
    proxyGet userSnapshot [] (.prop "user") =
      .ok (.facade [.str "user"], []) ∧
    proxyGet userSnapshot [.str "user"] (.prop "name") =
      .ok (.value (.str "x"), [[.str "user", .str "name"]]) := by
  refine ⟨?_, ?_, rfl, rfl⟩
  · intro hc
    simp only [proxyGet, hnn, Bool.false_eq_true, if_false, hv, hc, if_true]
  · intro hc
    by_cases hf : isFunction value = true
    · refine ⟨.bound value, ?_⟩
      simp only [proxyGet, hnn, Bool.false_eq_true, if_false, hv, hc, hf,
        if_true]
    · refine ⟨.value value, ?_⟩
      simp only [proxyGet, hnn, Bool.false_eq_true, if_false, hv, hc, hf,
        if_true]

/-- C6: every mutation trap of the facade — assignment, property
definition, deletion, prototype change — throws `DirectMutationError`
unconditionally, before anything is written, so the underlying snapshot
comes back unchanged; this holds for the facade of every path prefix,
hence for nested facades too. -/
theorem c6_mutations_rejected (form : JSVal) (prevPath : List FieldName)
    (k : ProxyProp) (v proto : JSVal) :
    proxySet form prevPath k v = (.error ⟨directMutationMsg⟩, form) ∧
    proxyDefineProperty form prevPath k =
      (.error ⟨directMutationMsg⟩, form) ∧
    proxyDeleteProperty form prevPath k =
      (.error ⟨directMutationMsg⟩, form) ∧
    proxySetPrototypeOf form prevPath proto =
      (.error ⟨directMutationMsg⟩, form) :=
  ⟨rfl, rfl, rfl, rfl⟩

/-- C7: `get` and `set` normalize numeric and string segments to the same
canonical string form before trie lookup (`String(key)` in `mapGetter` /
`mapSetter`), so a canonicalized path addresses the same entry as the
original: `get` and `set` are invariant under replacing every `num n`
segment by `str (toString n)`.  The sentinel is untouched by the
normalization and its key never collides with any string key.  In
particular `set([0], v)` followed by `get(["0"])` returns `v`. -/
theorem c7_segment_normalization {V : Type} (m : Fields V)
    (p : List FieldName) (v : V) :
    FieldsMap.get m (canonPath p) = FieldsMap.get m p ∧
    FieldsMap.set m (canonPath p) v = FieldsMap.set m p v ∧
    (∀ n : Nat, canonSeg (.num n) = .str (toString n)) ∧
    canonSeg .selfRef = .selfRef ∧
    (∀ s : String, normKey .selfRef ≠ TrieKey.str s) ∧
    (∃ m', FieldsMap.set (FieldsMap.empty V) [.num 0] v = .ok m' ∧
      FieldsMap.get m' [.str "0"] = .ok (some v)) :=
  ⟨get_canonPath m p, setGo_canonPath p m v, fun _ => rfl, rfl,
    fun _ h => TrieKey.noConfusion h,
    ⟨Fields.mk none [("0", Fields.mk (some v) [])], rfl, rfl⟩⟩

/-- C8: `set(p, v)` stores `v` at exactly `p` — `get` on the updated trie
returns `v` at `p` — and does not disturb the payload at any other address
`q` (addresses compare after the canonical string normalization of C7,
under which ancestors, descendants and siblings of `p` are all distinct
from `p`); `keys` never reports the sentinel.  Concretely, after
`set(["a","b"], 1)` and `set(["a"], 2)`: `get(["a","b"]) = 1`,
`get(["a"]) = 2`, and `keys(["a"]) = ["b"]`. -/
theorem c8_set_exact_and_frame {V : Type} (m : Fields V)
    (p q : List FieldName) (v : V) (hp : SentinelFree p)
    (hq : SentinelFree q) (hne : strPath q ≠ strPath p) :
    (∃ m', FieldsMap.set m p v = .ok m' ∧
      FieldsMap.get m' p = .ok (some v) ∧
      FieldsMap.get m' q = FieldsMap.get m q ∧
      ∀ r, FieldsMap.keys m' q = .ok r → FieldName.selfRef ∉ r) ∧
    (∃ mA mB : Fields Nat,
      FieldsMap.set (FieldsMap.empty Nat) [.str "a", .str "b"] 1 = .ok mA ∧
      FieldsMap.set mA [.str "a"] 2 = .ok mB ∧
      FieldsMap.get mB [.str "a", .str "b"] = .ok (some 1) ∧
      FieldsMap.get mB [.str "a"] = .ok (some 2) ∧
      FieldsMap.keys mB [.str "a"] = .ok [.str "b"]) := by
  constructor
  · refine ⟨setP m (strPath p) v, set_spec m p v hp, ?_, ?_, ?_⟩
    · rw [get_spec _ p hp, subPayload_setP_self]
    · rw [get_spec _ q hq, get_spec m q hq,
        subPayload_setP_frame (strPath p) (strPath q) m v
          (fun h' => hne h'.symm)]
    · exact fun r hr => keys_sentinel_absent _ q r hq hr
  · exact ⟨Fields.mk none [("a", Fields.mk none [("b", Fields.mk (some 1) [])])],
      Fields.mk none [("a", Fields.mk (some 2) [("b", Fields.mk (some 1) [])])],
      rfl, rfl, rfl, rfl, rfl⟩

/-- C9: the misuse check of `useForm.field` throws iff `fieldValue !==
value && !(isNaN(fieldValue) && isNaN(value))`.  NaN is not strictly equal
to itself, but when the value re-read from the snapshot at the inferred
path is NaN and the supplied value is NaN, the `isNaN` allowance makes the
check pass, so no `MisuseError` is raised. -/
theorem c9_nan_allowance (form : JSVal) (p : List FieldName)
    (h : getIn form p = .nan) :
    jsStrictEq (getIn form p) .nan = false ∧
    fieldCheckThrows form p .nan = false := by
  constructor
  · rw [h]
    rfl
  · simp [fieldCheckThrows, h, jsStrictEq, jsIsNaN]

/-- C10 (implicit): the NaN allowance uses the *coercing* global `isNaN`,
so it fires for every pair of values that are both non-numeric under
`Number(...)` coercion — not only for actual NaN.  Whenever the stored and
the supplied value are both NaN under coercion (e.g. two different
non-numeric strings), the check passes and no error is thrown, even though
the values are distinct and strictly unequal. -/
theorem c10_coercing_isnan_passes (form : JSVal) (p : List FieldName)
    (value : JSVal) (h1 : jsIsNaN (getIn form p) = true)
    (h2 : jsIsNaN value = true) :
    fieldCheckThrows form p value = false := by
  simp [fieldCheckThrows, h1, h2]

/-- Witness for C3: the spec's subtree-aggregation trie — payloads `1` at
`["a"]`, `2` at `["a","b"]`, `3` at `["a","b","c"]` — queried at `["a"]`
with bound 1, with JS truthiness on numbers. -/
theorem c3_getAllNested_truthy_membership_witness :
    ∃ l, FieldsMap.getAllNested (fun n : Nat => n != 0)
      (Fields.mk none [("a", Fields.mk (some 1)
        [("b", Fields.mk (some 2) [("c", Fields.mk (some 3) [])])])])
      [.str "a"] (some 1) = .ok l ∧
    (nodeAtP (Fields.mk none [("a", Fields.mk (some 1)
        [("b", Fields.mk (some 2) [("c", Fields.mk (some 3) [])])])])
      (strPath [.str "a"]) = none → l = []) ∧
    ∀ v, v ∈ l ↔ ∃ n0 q, nodeAtP (Fields.mk none [("a", Fields.mk (some 1)
        [("b", Fields.mk (some 2) [("c", Fields.mk (some 3) [])])])])
      (strPath [.str "a"]) = some n0 ∧
      subPayload n0 q = some v ∧ (v != 0) = true ∧
      (q = [] ∨ depthOk (some 1) q.length) :=
  c3_getAllNested_truthy_membership (fun n : Nat => n != 0)
    (Fields.mk none [("a", Fields.mk (some 1)
      [("b", Fields.mk (some 2) [("c", Fields.mk (some 3) [])])])])
    [.str "a"] (some 1) (by simp [SentinelFree])
    (by simp [Fields.wf, nodupKeys, childrenWf, childLookup])

/-- Witness for C4: `deepSet({}, ["a","b"], 7)` then `deepGet` at
`["a","b"]` returns 7. -/
theorem c4_set_get_roundtrip_witness :
    getIn (.obj [(.str "a", .obj [(.str "b", .num 7)])])
      [.str "a", .str "b"] = .num 7 :=
  c4_set_get_roundtrip (.obj []) [.str "a", .str "b"] (.num 7)
    (fun _ => .obj []) (.obj [(.str "a", .obj [(.str "b", .num 7)])])
    (by simp) rfl

/-- Witness for C5: reading `user` on the example snapshot yields a child
facade and records nothing. -/
theorem c5_read_tracking_witness :
    proxyGet userSnapshot [] (.prop "user") =
      .ok (.facade [.str "user"], []) :=
  (c5_read_tracking userSnapshot [] "user" userInner rfl rfl).1 (by rfl)

/-- Witness for C8: setting `5` at `[0]` in an empty trie, with the
distinct address `["1"]` as the frame path. -/
theorem c8_set_exact_and_frame_witness :
    (∃ m', FieldsMap.set (FieldsMap.empty Nat) [.num 0] 5 = .ok m' ∧
      FieldsMap.get m' [.num 0] = .ok (some 5) ∧
      FieldsMap.get m' [.str "1"] =
        FieldsMap.get (FieldsMap.empty Nat) [.str "1"] ∧
      ∀ r, FieldsMap.keys m' [.str "1"] = .ok r →
        FieldName.selfRef ∉ r) ∧
    (∃ mA mB : Fields Nat,
      FieldsMap.set (FieldsMap.empty Nat) [.str "a", .str "b"] 1 = .ok mA ∧
      FieldsMap.set mA [.str "a"] 2 = .ok mB ∧
      FieldsMap.get mB [.str "a", .str "b"] = .ok (some 1) ∧
      FieldsMap.get mB [.str "a"] = .ok (some 2) ∧
      FieldsMap.keys mB [.str "a"] = .ok [.str "b"]) :=
  c8_set_exact_and_frame (FieldsMap.empty Nat) [.num 0] [.str "1"] 5
    (by simp [SentinelFree]) (by simp [SentinelFree])
    (by simp only [strPath, keyStr, List.map_cons, List.map_nil]
        decide)

/-- Witness for C9: snapshot `{n: NaN}`, path `["n"]`, supplied value
NaN. -/
theorem c9_nan_allowance_witness :
    jsStrictEq (getIn (.obj [(.str "n", .nan)]) [.str "n"]) .nan = false ∧
    fieldCheckThrows (.obj [(.str "n", .nan)]) [.str "n"] .nan = false :=
  c9_nan_allowance (.obj [(.str "n", .nan)]) [.str "n"] rfl

/-- Witness for C10: stored `"abc"`, supplied `"xyz"` — distinct, strictly
unequal, both NaN under coercion — and the check does not throw. -/
theorem c10_coercing_isnan_passes_witness :
    jsStrictEq (.str "abc") (.str "xyz") = false ∧
    fieldCheckThrows (.obj [(.str "s", .str "abc")]) [.str "s"]
      (.str "xyz") = false :=
  ⟨rfl, c10_coercing_isnan_passes (.obj [(.str "s", .str "abc")])
    [.str "s"] (.str "xyz") rfl rfl⟩
